import Mathlib

/-!
Verification of the financial document acquisition/extraction engine in
`stock_data_agent.py` (class `FinancialDataParser` and class `StockDataAgent`).

A shallow embedding: Python strings become `String`/`List Char`, Python
`Decimal` and `float` values become exact rationals (`ℚ`; every numeric
literal the parser handles is a finite decimal, so exact rationals agree
with `Decimal` semantics and with the printed value of the floats involved),
the visited-URL set becomes a `List String` with membership, the four
per-category accumulators become explicit lists, and Playwright navigation
becomes a pure outcome function.  Regex searches used by the source are
embedded as explicit scanners with the same leftmost/greedy semantics
(justified case by case in the comments where the pattern admits no
operative backtracking).  Characters are treated as in the ASCII fragment
(plus the literal currency symbols) that the source's patterns mention.
-/

namespace Quetzal

/-- Python `\s` on the inputs in scope: space, tab, newline, CR, FF, VT. -/
def isWs (c : Char) : Bool :=
  c = ' ' || c = '\t' || c = '\n' || c = '\r' || c = '\x0b' || c = '\x0c'

/-- Python `\w` (ASCII fragment): alphanumeric or underscore. -/
def isWordChar (c : Char) : Bool :=
  c.isAlphanum || c = '_'

/-- Character class kept by `clean_text`'s `re.sub(r'[^\w\s%₹$€£.-]', '', ·)`. -/
def isKept (c : Char) : Bool :=
  isWordChar c || isWs c || c = '%' || c = '₹' || c = '$' || c = '€' || c = '£' ||
    c = '.' || c = '-'

/-- Python `str.strip()` (whitespace from both ends). -/
def stripBoth (s : List Char) : List Char :=
  ((s.dropWhile isWs).reverse.dropWhile isWs).reverse

/-- Accumulator version of Python `str.split()` (split on whitespace runs,
dropping empty fields).  `acc` holds the current token reversed. -/
def splitWsAux : List Char → List Char → List (List Char)
  | [], acc => if acc.isEmpty then [] else [acc.reverse]
  | c :: cs, acc =>
    if isWs c then
      if acc.isEmpty then splitWsAux cs []
      else acc.reverse :: splitWsAux cs []
    else splitWsAux cs (c :: acc)

/-- Python `str.split()` with no separator argument. -/
def splitWs (s : List Char) : List (List Char) :=
  splitWsAux s []

/-- Python `' '.join(tokens)`. -/
def joinTok : List (List Char) → List Char
  | [] => []
  | [t] => t
  | t :: ts => t ++ ' ' :: joinTok ts

/-- `FinancialDataParser.clean_text` on the character list:
`' '.join(text.split())`, then `re.sub(r'[^\w\s%₹$€£.-]', '', text)`,
then `.strip()`. -/
def cleanList (s : List Char) : List Char :=
  if s.isEmpty then [] else stripBoth ((joinTok (splitWs s)).filter isKept)

/-- `FinancialDataParser.clean_text` (the `if not text: return ""` guard is
the `isEmpty` test inside `cleanList`). -/
def clean_text (s : String) : String :=
  String.mk (cleanList s.data)

/-! ### Number scanning: the regex `-?\d+\.?\d*`

`numTokenCore` takes the greedy match of `\d+\.?\d*` starting at a digit;
`numTokenAt` adds the optional leading sign.  Backtracking inside this
pattern is irrelevant for the two uses in the source: `extract_amount` uses
the bare pattern (the greedy match is the regex match), and for
`extract_percentage`'s continuation `\s*%` every non-greedy candidate stops
immediately before a digit or a `'.'`, where `\s*%` cannot match, so the
greedy candidate is again the only one that can succeed. -/

/-- Greedy match of `\d+\.?\d*` at the head (the head is assumed a digit);
returns the matched characters and the rest. -/
def numTokenCore (s : List Char) : List Char × List Char :=
  match s.dropWhile Char.isDigit with
  | '.' :: r2 =>
    (s.takeWhile Char.isDigit ++ '.' :: r2.takeWhile Char.isDigit,
     r2.dropWhile Char.isDigit)
  | _ => (s.takeWhile Char.isDigit, s.dropWhile Char.isDigit)

/-- Match of `-?\d+\.?\d*` anchored at the head of `s`. -/
def numTokenAt : List Char → Option (List Char × List Char)
  | [] => none
  | c :: cs =>
    if c = '-' then
      match cs with
      | d :: _ =>
        if d.isDigit then
          some ('-' :: (numTokenCore cs).1, (numTokenCore cs).2)
        else none
      | [] => none
    else if c.isDigit then some (numTokenCore (c :: cs)) else none

/-- Leftmost match of `-?\d+\.?\d*` (Python `re.search`), returning the
matched token. -/
def findNum : List Char → Option (List Char)
  | [] => none
  | c :: cs =>
    match numTokenAt (c :: cs) with
    | some p => some p.1
    | none => findNum cs

/-- Numeric value of a digit character. -/
def digitVal (c : Char) : ℕ := c.toNat - 48

/-- Value of a digit run read in base 10. -/
def natOfDigits (l : List Char) : ℕ :=
  l.foldl (fun n c => 10 * n + digitVal c) 0

/-- Value of an unsigned token split as integer digits plus the rest
(either `[]` or `'.' :: fraction digits`), `Decimal` semantics. -/
def fracVal (ds : List Char) : List Char → ℚ
  | '.' :: frac => (natOfDigits ds : ℚ) + (natOfDigits frac : ℚ) / (10 ^ frac.length)
  | _ => (natOfDigits ds : ℚ)

/-- Value of an unsigned token `\d+\.?\d*` as an exact rational
(`Decimal` semantics). -/
def ratOfTokenPos (l : List Char) : ℚ :=
  fracVal (l.takeWhile Char.isDigit) (l.dropWhile Char.isDigit)

/-- Value of a token `-?\d+\.?\d*` as an exact rational. -/
def ratOfToken : List Char → ℚ
  | '-' :: rest => - ratOfTokenPos rest
  | l => ratOfTokenPos l

/-- Shape checker for tokens produced by `numTokenAt`:
optional `'-'`, one or more digits, optionally `'.'` then digits only. -/
def isNumTokPos (t : List Char) : Bool :=
  !(t.takeWhile Char.isDigit).isEmpty &&
    (match t.dropWhile Char.isDigit with
     | [] => true
     | '.' :: r => r.all Char.isDigit
     | _ => false)

/-- Shape checker for `-?\d+\.?\d*` tokens. -/
def isNumTok (t : List Char) : Bool :=
  if t.head? = some '-' then isNumTokPos t.tail else isNumTokPos t

/-! ### `FinancialDataParser.extract_percentage`

Source: `re.search(r'(-?\d+\.?\d*)\s*%', text)`, returning
`float(match.group(1))`. -/

/-- Match of `(-?\d+\.?\d*)\s*%` anchored at the head of `s`, returning the
number token (group 1). -/
def pctAt (s : List Char) : Option (List Char) :=
  match numTokenAt s with
  | none => none
  | some (tok, rest) =>
    match rest.dropWhile isWs with
    | '%' :: _ => some tok
    | _ => none

/-- Leftmost match of `(-?\d+\.?\d*)\s*%` (Python `re.search`). -/
def findPct : List Char → Option (List Char)
  | [] => none
  | c :: cs =>
    match pctAt (c :: cs) with
    | some t => some t
    | none => findPct cs

/-- `FinancialDataParser.extract_percentage`. -/
def extract_percentage (s : String) : Option ℚ :=
  if s.data.isEmpty then none else (findPct s.data).map ratOfToken

/-! ### `FinancialDataParser.extract_amount` -/

/-- Substring test, Python's `needle in text`. -/
def containsSub (needle : List Char) : List Char → Bool
  | [] => needle.isEmpty
  | c :: cs => needle.isPrefixOf (c :: cs) || containsSub needle cs

/-- The `multipliers` dict of `extract_amount`, in insertion order. -/
def unitTable : List (List Char × ℚ) :=
  [("cr".data, 10000000), ("crore".data, 10000000),
   ("lakh".data, 100000), ("lakhs".data, 100000),
   ("million".data, 1000000), ("mn".data, 1000000),
   ("billion".data, 1000000000), ("bn".data, 1000000000)]

/-- The `for unit, multiplier in multipliers.items(): if unit in text:
amount *= multiplier; break` loop. -/
def applyUnits : List (List Char × ℚ) → List Char → ℚ → ℚ
  | [], _, a => a
  | (u, m) :: rest, t, a => if containsSub u t then a * m else applyUnits rest t a

/-- `text.replace(',', '').lower()`. -/
def lowered (s : String) : List Char :=
  (s.data.filter (fun c => c != ',')).map Char.toLower

/-- `FinancialDataParser.extract_amount`:
`text.replace(',', '').lower()`, first `-?\d+\.?\d*` as a `Decimal`,
then the unit-multiplier loop. -/
def extract_amount (s : String) : Option ℚ :=
  if s.data.isEmpty then none
  else
    match findNum (lowered s) with
    | none => none
    | some tok => some (applyUnits unitTable (lowered s) (ratOfToken tok))

/-- Spec-side unit factor, following the spec's wording: "first matching
unit's factor (check order: crore-variants, then lakh-variants, then
million-variants, then billion-variants — first match wins, no stacking)". -/
def specUnitFactor (t : List Char) : ℚ :=
  if containsSub "cr".data t then 10000000
  else if containsSub "crore".data t then 10000000
  else if containsSub "lakh".data t then 100000
  else if containsSub "lakhs".data t then 100000
  else if containsSub "million".data t then 1000000
  else if containsSub "mn".data t then 1000000
  else if containsSub "billion".data t then 1000000000
  else if containsSub "bn".data t then 1000000000
  else 1

/-- Spec-side `extractAmount`: lowercase and strip comma separators, take
the first signed decimal, multiply by the factor of the first matching unit
keyword (at most one factor). -/
def specExtractAmount (s : String) : Option ℚ :=
  if s.data.isEmpty then none
  else
    match findNum (lowered s) with
    | none => none
    | some tok => some (ratOfToken tok * specUnitFactor (lowered s))

/-! ### Evaluation lemmas

`Rat` arithmetic does not reduce inside `decide`, so concrete runs of the
parsers are evaluated in two stages: the character-level scan is settled by
`decide`, and the final rational arithmetic by `norm_num`. -/

theorem ratOfTokenPos_eval (l ds frac : List Char)
    (h1 : l.takeWhile Char.isDigit = ds) (h2 : l.dropWhile Char.isDigit = '.' :: frac) :
    ratOfTokenPos l = (natOfDigits ds : ℚ) + (natOfDigits frac : ℚ) / 10 ^ frac.length := by
  unfold ratOfTokenPos
  rw [h1, h2]
  simp [fracVal]

theorem extract_percentage_eval (s : String) (tok : List Char) (q : ℚ)
    (h1 : s.data.isEmpty = false) (h2 : findPct s.data = some tok)
    (h3 : ratOfToken tok = q) :
    extract_percentage s = some q := by
  unfold extract_percentage
  rw [h1, h2]
  simp [h3]

theorem extract_amount_eval (s : String) (tok : List Char) (q : ℚ)
    (h1 : s.data.isEmpty = false)
    (h2 : findNum (lowered s) = some tok)
    (h3 : applyUnits unitTable (lowered s) (ratOfToken tok) = q) :
    extract_amount s = some q := by
  unfold extract_amount
  rw [h1, h2]
  simp [h3]

theorem applyUnits_cr (t : List Char) (a : ℚ) (h : containsSub "cr".data t = true) :
    applyUnits unitTable t a = a * 10000000 := by
  simp [applyUnits, unitTable, h]

theorem applyUnits_lakh (t : List Char) (a : ℚ)
    (h1 : containsSub "cr".data t = false) (h2 : containsSub "crore".data t = false)
    (h3 : containsSub "lakh".data t = true) :
    applyUnits unitTable t a = a * 100000 := by
  simp [applyUnits, unitTable, h1, h2, h3]

theorem ex_clean_revenue : clean_text "  Revenue   up!! 12%  " = "Revenue up 12%" := by
  decide

theorem ex_pct_flat : extract_percentage "flat" = none := by decide

theorem ex_pct_space12 : extract_percentage "12 %" = some 12 := by decide

theorem ex_amount_nonum : extract_amount "no numbers here" = none := by decide

theorem ex_pct_neg34 : extract_percentage "grew by -3.4%" = some (-3.4) := by
  refine extract_percentage_eval _ ['-', '3', '.', '4'] _ (by decide) (by decide) ?_
  rw [show ratOfToken ['-', '3', '.', '4'] = - ratOfTokenPos ['3', '.', '4'] from rfl,
    ratOfTokenPos_eval ['3', '.', '4'] ['3'] ['4'] (by decide) (by decide)]
  norm_num [(by decide : natOfDigits ['3'] = 3), (by decide : natOfDigits ['4'] = 4)]

theorem ex_amount_crore : extract_amount "₹12.5 crore" = some 125000000 := by
  refine extract_amount_eval _ ['1', '2', '.', '5'] _ (by decide) (by decide) ?_
  rw [applyUnits_cr _ _ (by decide),
    show ratOfToken ['1', '2', '.', '5'] = ratOfTokenPos ['1', '2', '.', '5'] from rfl,
    ratOfTokenPos_eval ['1', '2', '.', '5'] ['1', '2'] ['5'] (by decide) (by decide)]
  norm_num [(by decide : natOfDigits ['1', '2'] = 12), (by decide : natOfDigits ['5'] = 5)]

theorem ex_amount_lakh : extract_amount "1.2 lakh" = some 120000 := by
  refine extract_amount_eval _ ['1', '.', '2'] _ (by decide) (by decide) ?_
  rw [applyUnits_lakh _ _ (by decide) (by decide) (by decide),
    show ratOfToken ['1', '.', '2'] = ratOfTokenPos ['1', '.', '2'] from rfl,
    ratOfTokenPos_eval ['1', '.', '2'] ['1'] ['2'] (by decide) (by decide)]
  norm_num [(by decide : natOfDigits ['1'] = 1), (by decide : natOfDigits ['2'] = 2)]

theorem ex_amount_across : extract_amount "5 across" = some 50000000 := by
  refine extract_amount_eval _ ['5'] _ (by decide) (by decide) ?_
  rw [applyUnits_cr _ _ (by decide),
    show ratOfToken ['5'] = ratOfTokenPos ['5'] from rfl]
  rw [show ratOfTokenPos ['5'] = ((natOfDigits ['5'] : ℚ)) from rfl]
  norm_num [(by decide : natOfDigits ['5'] = 5)]

theorem ex_amount_crypto : extract_amount "3 crypto tokens" = some 30000000 := by
  refine extract_amount_eval _ ['3'] _ (by decide) (by decide) ?_
  rw [applyUnits_cr _ _ (by decide),
    show ratOfToken ['3'] = ratOfTokenPos ['3'] from rfl]
  rw [show ratOfTokenPos ['3'] = ((natOfDigits ['3'] : ℚ)) from rfl]
  norm_num [(by decide : natOfDigits ['3'] = 3)]

/-! ### Refinement: `extract_amount` against the spec's wording -/

theorem applyUnits_eq_spec (t : List Char) (a : ℚ) :
    applyUnits unitTable t a = a * specUnitFactor t := by
  simp only [unitTable, applyUnits, specUnitFactor]
  split_ifs <;> ring

theorem extract_amount_eq_spec (s : String) : extract_amount s = specExtractAmount s := by
  unfold extract_amount specExtractAmount
  cases hE : s.data.isEmpty
  · simp only [Bool.false_eq_true, if_false]
    cases h : findNum (lowered s) <;> simp [applyUnits_eq_spec, mul_comm]
  · simp

/-! ### `StockDataAgent.safe_goto`

The renderer is modelled as a function from the retry counter to the
navigation outcome; the result is (success flag, number of `page.goto`
attempts performed, list of backoff delays slept between attempts, in
order).  The source retries recursively with `asyncio.sleep(2 * (retries +
1))` while `retries < self.max_retries`, returns `False` after exhaustion,
and returns `False` immediately on a non-timeout exception. -/

inductive NavOutcome where
  | ok
  | timeoutErr
  | otherErr
deriving DecidableEq

/-- `StockDataAgent.safe_goto` (the post-success `asyncio.sleep(2)` does not
affect the result and is not tracked). -/
def safe_goto (nav : ℕ → NavOutcome) (maxRetries : ℕ) (retries : ℕ) :
    Bool × ℕ × List ℕ :=
  match nav retries with
  | .ok => (true, 1, [])
  | .timeoutErr =>
    if h : retries < maxRetries then
      ((safe_goto nav maxRetries (retries + 1)).1,
       (safe_goto nav maxRetries (retries + 1)).2.1 + 1,
       2 * (retries + 1) :: (safe_goto nav maxRetries (retries + 1)).2.2)
    else (false, 1, [])
  | .otherErr => (false, 1, [])
termination_by maxRetries - retries
decreasing_by omega

/-! ### Soundness of the percentage scanner -/

theorem mem_takeWhile_sat (p : Char → Bool) (l : List Char) (c : Char)
    (h : c ∈ l.takeWhile p) : p c = true := by
  induction l with
  | nil => simp [List.takeWhile] at h
  | cons d ds ih =>
    rw [List.takeWhile_cons] at h
    by_cases hd : p d
    · simp only [hd, if_true, List.mem_cons] at h
      rcases h with h | h
      · exact h ▸ hd
      · exact ih h
    · simp [hd] at h

theorem takeWhile_all_app (p : Char → Bool) (l r : List Char)
    (h : ∀ c ∈ l, p c = true) : (l ++ r).takeWhile p = l ++ r.takeWhile p := by
  induction l with
  | nil => simp
  | cons c cs ih =>
    simp only [List.cons_append, List.takeWhile_cons, h c (by simp)]
    rw [ih (fun d hd => h d (by simp [hd]))]
    simp

theorem dropWhile_all_app (p : Char → Bool) (l r : List Char)
    (h : ∀ c ∈ l, p c = true) : (l ++ r).dropWhile p = r.dropWhile p := by
  induction l with
  | nil => simp
  | cons c cs ih =>
    simp only [List.cons_append, List.dropWhile_cons, h c (by simp)]
    rw [ih (fun d hd => h d (by simp [hd]))]
    simp

theorem numTokenCore_sound (c : Char) (cs : List Char) (hc : c.isDigit = true) :
    c :: cs = (numTokenCore (c :: cs)).1 ++ (numTokenCore (c :: cs)).2 ∧
      isNumTokPos (numTokenCore (c :: cs)).1 = true ∧
      ∃ t, (numTokenCore (c :: cs)).1 = c :: t := by
  have hds : (c :: cs).takeWhile Char.isDigit = c :: cs.takeWhile Char.isDigit := by
    rw [List.takeWhile_cons, if_pos hc]
  have hall : ∀ d ∈ (c :: cs).takeWhile Char.isDigit, d.isDigit = true :=
    fun d hd => mem_takeWhile_sat _ _ _ hd
  have hsplit : (c :: cs).takeWhile Char.isDigit ++ (c :: cs).dropWhile Char.isDigit
      = c :: cs := List.takeWhile_append_dropWhile ..
  unfold numTokenCore
  split
  case _ r2 heq =>
    refine ⟨?_, ?_, ?_⟩
    · calc c :: cs
          = (c :: cs).takeWhile Char.isDigit ++ (c :: cs).dropWhile Char.isDigit :=
            hsplit.symm
        _ = (c :: cs).takeWhile Char.isDigit ++ '.' :: (r2.takeWhile Char.isDigit
              ++ r2.dropWhile Char.isDigit) := by
            rw [heq, List.takeWhile_append_dropWhile]
        _ = ((c :: cs).takeWhile Char.isDigit ++ '.' :: r2.takeWhile Char.isDigit)
              ++ r2.dropWhile Char.isDigit := by simp
    · unfold isNumTokPos
      rw [takeWhile_all_app _ _ _ hall, dropWhile_all_app _ _ _ hall]
      simp only [List.takeWhile_cons, List.dropWhile_cons, hc,
        (by decide : ('.' : Char).isDigit = false), Bool.false_eq_true, if_false,
        if_true, List.append_nil, List.isEmpty_cons, Bool.not_false, Bool.true_and]
      rw [List.all_eq_true]
      exact fun d hd => mem_takeWhile_sat _ _ _ hd
    · exact ⟨cs.takeWhile Char.isDigit ++ '.' :: r2.takeWhile Char.isDigit, by
        rw [hds]; simp⟩
  case _ hne =>
    refine ⟨?_, ?_, ?_⟩
    · exact hsplit.symm
    · unfold isNumTokPos
      have h1 : ((c :: cs).takeWhile Char.isDigit).takeWhile Char.isDigit
          = (c :: cs).takeWhile Char.isDigit := by
        have := takeWhile_all_app Char.isDigit ((c :: cs).takeWhile Char.isDigit) [] hall
        simpa using this
      have h2 : ((c :: cs).takeWhile Char.isDigit).dropWhile Char.isDigit = [] := by
        have := dropWhile_all_app Char.isDigit ((c :: cs).takeWhile Char.isDigit) [] hall
        simpa using this
      rw [h1, h2, hds]
      simp
    · exact ⟨cs.takeWhile Char.isDigit, hds⟩

theorem numTokenAt_sound (s tok rest : List Char)
    (h : numTokenAt s = some (tok, rest)) :
    s = tok ++ rest ∧ isNumTok tok = true := by
  cases s with
  | nil => exact Option.noConfusion h
  | cons c cs =>
    by_cases hc : c = '-'
    · subst hc
      cases cs with
      | nil =>
        rw [show numTokenAt ['-'] = none from rfl] at h
        exact Option.noConfusion h
      | cons d tl =>
        by_cases hd : d.isDigit
        · have hEq : numTokenAt ('-' :: d :: tl)
              = some ('-' :: (numTokenCore (d :: tl)).1, (numTokenCore (d :: tl)).2) := by
            show (if d.isDigit = true
                then some ('-' :: (numTokenCore (d :: tl)).1, (numTokenCore (d :: tl)).2)
                else none) = _
            rw [if_pos hd]
          rw [hEq] at h
          simp only [Option.some.injEq, Prod.mk.injEq] at h
          obtain ⟨h1, h2⟩ := h
          subst h1; subst h2
          obtain ⟨hdec, hshape, t', ht'⟩ := numTokenCore_sound d tl hd
          refine ⟨?_, ?_⟩
          · rw [List.cons_append, ← hdec]
          · rw [show isNumTok ('-' :: (numTokenCore (d :: tl)).1)
                = isNumTokPos (numTokenCore (d :: tl)).1 from rfl]
            exact hshape
        · have hEq : numTokenAt ('-' :: d :: tl) = none := by
            show (if d.isDigit = true
                then some ('-' :: (numTokenCore (d :: tl)).1, (numTokenCore (d :: tl)).2)
                else none) = _
            rw [if_neg hd]
          rw [hEq] at h
          exact Option.noConfusion h
    · by_cases hd : c.isDigit
      · have hEq : numTokenAt (c :: cs) = some (numTokenCore (c :: cs)) := by
          simp only [numTokenAt]
          rw [if_neg hc, if_pos hd]
        rw [hEq] at h
        have hpr := Option.some.inj h
        have h1 : (numTokenCore (c :: cs)).1 = tok := congrArg Prod.fst hpr
        have h2 : (numTokenCore (c :: cs)).2 = rest := congrArg Prod.snd hpr
        obtain ⟨hdec, hshape, t', ht'⟩ := numTokenCore_sound c cs hd
        refine ⟨by rw [← h1, ← h2, ← hdec], ?_⟩
        rw [← h1, ht']
        have hcond : ¬((c :: t').head? = some '-') := by simp [hc]
        unfold isNumTok
        rw [if_neg hcond, ← ht']
        exact hshape
      · have hEq : numTokenAt (c :: cs) = none := by
          simp only [numTokenAt]
          rw [if_neg hc, if_neg hd]
        rw [hEq] at h
        exact Option.noConfusion h

theorem pctAt_sound (s tok : List Char) (h : pctAt s = some tok) :
    ∃ ws rest, s = tok ++ ws ++ '%' :: rest ∧ ws.all isWs = true ∧
      isNumTok tok = true := by
  unfold pctAt at h
  split at h
  · exact Option.noConfusion h
  case _ tk rs heq =>
    split at h
    case _ r2 heq2 =>
      have htk : tk = tok := Option.some.inj h
      subst htk
      obtain ⟨hdec, hshape⟩ := numTokenAt_sound s tk rs heq
      refine ⟨rs.takeWhile isWs, r2, ?_, ?_, hshape⟩
      · rw [hdec]
        conv_lhs => rw [← List.takeWhile_append_dropWhile (p := isWs) (l := rs)]
        rw [heq2]
        simp
      · rw [List.all_eq_true]
        exact fun d hd => mem_takeWhile_sat _ _ _ hd
    · exact Option.noConfusion h

theorem findPct_cons (c : Char) (cs : List Char) :
    findPct (c :: cs) = match pctAt (c :: cs) with
      | some t => some t
      | none => findPct cs := rfl

theorem findPct_sound (s tok : List Char) (h : findPct s = some tok) :
    ∃ pre ws rest, s = pre ++ tok ++ ws ++ '%' :: rest ∧ ws.all isWs = true ∧
      isNumTok tok = true ∧ ∀ i < pre.length, pctAt (s.drop i) = none := by
  induction s with
  | nil => exact Option.noConfusion h
  | cons c cs ih =>
    rw [findPct_cons] at h
    cases hp : pctAt (c :: cs) with
    | some t =>
      rw [hp] at h
      have ht : t = tok := Option.some.inj h
      subst ht
      obtain ⟨ws, rest, hdec, hws, hshape⟩ := pctAt_sound _ _ hp
      exact ⟨[], ws, rest, by simpa using hdec, hws, hshape, by simp⟩
    | none =>
      rw [hp] at h
      obtain ⟨pre, ws, rest, hdec, hws, hshape, hfirst⟩ := ih h
      refine ⟨c :: pre, ws, rest, by simp [hdec], hws, hshape, ?_⟩
      intro i hi
      cases i with
      | zero => simpa using hp
      | succ j =>
        rw [show (c :: cs).drop (j + 1) = cs.drop j from rfl]
        exact hfirst j (by simpa using hi)

/-- Every value `extract_percentage` returns comes from a signed decimal
token followed by optional whitespace and then a percent sign, at the first
position of the input where such a match exists. -/
theorem extract_percentage_sound (s : String) (v : ℚ)
    (h : extract_percentage s = some v) :
    ∃ tok pre ws rest, s.data = pre ++ tok ++ ws ++ '%' :: rest ∧
      isNumTok tok = true ∧ ws.all isWs = true ∧ v = ratOfToken tok ∧
      ∀ i < pre.length, pctAt (s.data.drop i) = none := by
  unfold extract_percentage at h
  split at h
  · exact Option.noConfusion h
  · cases hf : findPct s.data with
    | none => rw [hf] at h; simp at h
    | some tk =>
      rw [hf] at h
      simp only [Option.map_some'] at h
      obtain ⟨pre, ws, rest, hdec, hws, hshape, hfirst⟩ := findPct_sound _ _ hf
      exact ⟨tk, pre, ws, rest, hdec, hshape, hws, (Option.some.inj h).symm, hfirst⟩

/-! ### Completeness of the percentage scanner: whenever the input contains
a signed decimal followed by optional whitespace and a percent sign,
`extract_percentage` returns a value. -/

theorem isWs_not_digit (c : Char) (h : isWs c = true) :
    c.isDigit = false ∧ c ≠ '.' := by
  unfold isWs at h
  simp only [Bool.or_eq_true, decide_eq_true_eq] at h
  rcases h with ((((h | h) | h) | h) | h) | h <;> subst h <;>
    exact ⟨by decide, by decide⟩

theorem isNumTokPos_shape (t : List Char) (h : isNumTokPos t = true) :
    t.takeWhile Char.isDigit ≠ [] ∧
      (t.dropWhile Char.isDigit = [] ∨
        ∃ fr, t.dropWhile Char.isDigit = '.' :: fr ∧ fr.all Char.isDigit = true) := by
  unfold isNumTokPos at h
  rw [Bool.and_eq_true] at h
  obtain ⟨h1, h2⟩ := h
  constructor
  · intro hnil
    rw [hnil] at h1
    simp at h1
  · split at h2
    case _ heq => exact Or.inl heq
    case _ fr heq => exact Or.inr ⟨fr, heq, h2⟩
    case _ => exact absurd h2 (by simp)

theorem isNumTokPos_head (t : List Char) (h : isNumTokPos t = true) :
    ∃ d tl, t = d :: tl ∧ d.isDigit = true := by
  obtain ⟨h1, _⟩ := isNumTokPos_shape t h
  cases t with
  | nil => exact absurd rfl h1
  | cons d tl =>
    refine ⟨d, tl, rfl, ?_⟩
    by_contra hd
    rw [List.takeWhile_cons, if_neg hd] at h1
    exact h1 rfl

theorem numTokenCore_complete (t r : List Char) (h : isNumTokPos t = true)
    (hr : ∀ c, r.head? = some c → c.isDigit = false ∧ c ≠ '.') :
    numTokenCore (t ++ r) = (t, r) := by
  obtain ⟨hne, hcase⟩ := isNumTokPos_shape t h
  have htw_r : r.takeWhile Char.isDigit = [] := by
    cases r with
    | nil => rfl
    | cons c cs => rw [List.takeWhile_cons, if_neg (by simp [(hr c rfl).1])]
  have hdw_r : r.dropWhile Char.isDigit = r := by
    cases r with
    | nil => rfl
    | cons c cs => rw [List.dropWhile_cons, if_neg (by simp [(hr c rfl).1])]
  rcases hcase with hnil | ⟨fr, hfr, hfrall⟩
  · have ht_all : ∀ c ∈ t, c.isDigit = true := by
      intro c hc
      have hsplit := List.takeWhile_append_dropWhile (p := Char.isDigit) (l := t)
      rw [hnil, List.append_nil] at hsplit
      rw [← hsplit] at hc
      exact mem_takeWhile_sat _ _ _ hc
    have htw : (t ++ r).takeWhile Char.isDigit = t := by
      rw [takeWhile_all_app _ _ _ ht_all, htw_r, List.append_nil]
    have hdw : (t ++ r).dropWhile Char.isDigit = r := by
      rw [dropWhile_all_app _ _ _ ht_all, hdw_r]
    unfold numTokenCore
    rw [hdw, htw]
    cases r with
    | nil => rfl
    | cons c cs =>
      have hc := (hr c rfl).2
      split
      case _ r2 heq =>
        injection heq with heq1 _
        exact absurd heq1 hc
      case _ => rfl
  · have hds_all : ∀ c ∈ t.takeWhile Char.isDigit, c.isDigit = true :=
      fun c hc => mem_takeWhile_sat _ _ _ hc
    have hsplit : t.takeWhile Char.isDigit ++ '.' :: fr = t := by
      conv_rhs => rw [← List.takeWhile_append_dropWhile (p := Char.isDigit) (l := t)]
      rw [hfr]
    have hfr_all : ∀ c ∈ fr, c.isDigit = true :=
      fun c hc => List.all_eq_true.mp hfrall c hc
    have hassoc : t ++ r = t.takeWhile Char.isDigit ++ '.' :: (fr ++ r) := by
      conv_lhs => rw [← hsplit]
      simp
    have htw : (t ++ r).takeWhile Char.isDigit = t.takeWhile Char.isDigit := by
      rw [hassoc, takeWhile_all_app _ _ _ hds_all]
      rw [List.takeWhile_cons, if_neg (by decide), List.append_nil]
    have hdw : (t ++ r).dropWhile Char.isDigit = '.' :: (fr ++ r) := by
      rw [hassoc, dropWhile_all_app _ _ _ hds_all]
      rw [List.dropWhile_cons, if_neg (by decide)]
    have htw2 : (fr ++ r).takeWhile Char.isDigit = fr := by
      rw [takeWhile_all_app _ _ _ hfr_all, htw_r, List.append_nil]
    have hdw2 : (fr ++ r).dropWhile Char.isDigit = r := by
      rw [dropWhile_all_app _ _ _ hfr_all, hdw_r]
    unfold numTokenCore
    rw [hdw]
    show ((t ++ r).takeWhile Char.isDigit ++ '.' :: (fr ++ r).takeWhile Char.isDigit,
      (fr ++ r).dropWhile Char.isDigit) = (t, r)
    rw [htw, htw2, hdw2, hsplit]

theorem numTokenAt_complete (tok r : List Char) (h : isNumTok tok = true)
    (hr : ∀ c, r.head? = some c → c.isDigit = false ∧ c ≠ '.') :
    numTokenAt (tok ++ r) = some (tok, r) := by
  unfold isNumTok at h
  by_cases hdash : tok.head? = some '-'
  · rw [if_pos hdash] at h
    obtain ⟨tpos, rfl⟩ : ∃ tpos, tok = '-' :: tpos := by
      cases tok with
      | nil => simp at hdash
      | cons c cs =>
        rw [List.head?_cons, Option.some.injEq] at hdash
        exact ⟨cs, by rw [hdash]⟩
    rw [List.tail_cons] at h
    obtain ⟨d, tl, rfl, hd⟩ := isNumTokPos_head tpos h
    have hcore := numTokenCore_complete (d :: tl) r h hr
    show (if d.isDigit = true
        then some ('-' :: (numTokenCore ((d :: tl) ++ r)).1,
          (numTokenCore ((d :: tl) ++ r)).2)
        else none) = some ('-' :: d :: tl, r)
    rw [if_pos hd, hcore]
  · rw [if_neg hdash] at h
    obtain ⟨d, tl, rfl, hd⟩ := isNumTokPos_head tok h
    have hdne : ¬(d = '-') := by
      intro hdd
      exact hdash (by rw [List.head?_cons, hdd])
    have hcore := numTokenCore_complete (d :: tl) r h hr
    rw [show (d :: tl) ++ r = d :: (tl ++ r) from rfl]
    simp only [numTokenAt]
    rw [if_neg hdne, if_pos hd]
    rw [show d :: (tl ++ r) = (d :: tl) ++ r from rfl, hcore]

theorem pctAt_complete (tok ws rest : List Char) (h1 : isNumTok tok = true)
    (h2 : ws.all isWs = true) :
    pctAt (tok ++ ws ++ '%' :: rest) = some tok := by
  have hr : ∀ c, (ws ++ '%' :: rest).head? = some c →
      c.isDigit = false ∧ c ≠ '.' := by
    intro c hc
    cases ws with
    | nil =>
      rw [List.nil_append, List.head?_cons, Option.some.injEq] at hc
      subst hc
      exact ⟨by decide, by decide⟩
    | cons w ws' =>
      rw [List.cons_append, List.head?_cons, Option.some.injEq] at hc
      subst hc
      exact isWs_not_digit w (List.all_eq_true.mp h2 w (by simp))
  rw [List.append_assoc]
  unfold pctAt
  rw [numTokenAt_complete tok _ h1 hr]
  have hdw : (ws ++ '%' :: rest).dropWhile isWs = '%' :: rest := by
    rw [dropWhile_all_app _ _ _ (List.all_eq_true.mp h2)]
    rw [List.dropWhile_cons, if_neg (by decide)]
  show (match (ws ++ '%' :: rest).dropWhile isWs with
    | '%' :: _ => some tok
    | _ => none) = some tok
  rw [hdw]
  rfl

theorem isNumTok_ne_nil (t : List Char) (h : isNumTok t = true) : t ≠ [] := by
  intro hnil
  rw [hnil] at h
  exact absurd h (by decide)

theorem findPct_complete (pre tok ws rest : List Char) (h1 : isNumTok tok = true)
    (h2 : ws.all isWs = true) :
    findPct (pre ++ tok ++ ws ++ '%' :: rest) ≠ none := by
  induction pre with
  | nil =>
    rw [List.nil_append]
    obtain ⟨c, cs, hcons⟩ : ∃ c cs, tok = c :: cs := by
      cases tok with
      | nil => exact absurd rfl (isNumTok_ne_nil [] h1)
      | cons c cs => exact ⟨c, cs, rfl⟩
    have hp := pctAt_complete tok ws rest h1 h2
    rw [hcons] at hp ⊢
    rw [show ((c :: cs) ++ ws ++ '%' :: rest)
        = c :: (cs ++ ws ++ '%' :: rest) from by simp]
    rw [findPct_cons]
    rw [show c :: (cs ++ ws ++ '%' :: rest)
        = (c :: cs) ++ ws ++ '%' :: rest from by simp]
    rw [hp]
    simp
  | cons c pre' ih =>
    rw [show ((c :: pre') ++ tok ++ ws ++ '%' :: rest)
        = c :: (pre' ++ tok ++ ws ++ '%' :: rest) from by simp]
    rw [findPct_cons]
    cases hp : pctAt (c :: (pre' ++ tok ++ ws ++ '%' :: rest)) with
    | some t => simp
    | none => exact ih

/-- Whenever the input decomposes as prefix ++ signed-decimal token ++
whitespace ++ '%' ++ rest, `extract_percentage` returns a value. -/
theorem extract_percentage_complete (s : String) (pre tok ws rest : List Char)
    (hdec : s.data = pre ++ tok ++ ws ++ '%' :: rest)
    (h1 : isNumTok tok = true) (h2 : ws.all isWs = true) :
    ∃ v, extract_percentage s = some v := by
  rw [← Option.ne_none_iff_exists']
  have hne : s.data.isEmpty = false := by
    rw [hdec]
    rcases pre with _ | ⟨a, pre'⟩
    · rcases tok with _ | ⟨b, tok'⟩
      · rcases ws with _ | ⟨c, ws'⟩ <;> rfl
      · rfl
    · rfl
  intro hcontra
  unfold extract_percentage at hcontra
  rw [hne] at hcontra
  simp only [Bool.false_eq_true, if_false] at hcontra
  rw [Option.map_eq_none'] at hcontra
  rw [hdec] at hcontra
  exact findPct_complete pre tok ws rest h1 h2 hcontra

/-! ### `clean_text`: structure of `split`/`join` and stability -/

theorem splitWsAux_tokens (s : List Char) : ∀ acc, (∀ c ∈ acc, isWs c = false) →
    ∀ t ∈ splitWsAux s acc, t ≠ [] ∧ ∀ c ∈ t, isWs c = false := by
  induction s with
  | nil =>
    intro acc hacc t ht
    simp only [splitWsAux] at ht
    by_cases hA : acc.isEmpty
    · simp [hA] at ht
    · rw [if_neg hA] at ht
      rw [List.mem_singleton] at ht
      subst ht
      have hAcc : acc ≠ [] := by
        intro hnil
        exact hA (by rw [hnil]; rfl)
      refine ⟨by simp [hAcc], fun c hc => hacc c (List.mem_reverse.mp hc)⟩
  | cons c cs ih =>
    intro acc hacc t ht
    simp only [splitWsAux] at ht
    by_cases hws : isWs c
    · rw [if_pos hws] at ht
      by_cases hA : acc.isEmpty
      · rw [if_pos hA] at ht
        exact ih [] (by simp) t ht
      · rw [if_neg hA] at ht
        rcases List.mem_cons.mp ht with h | h
        · subst h
          have hAcc : acc ≠ [] := by
            intro hnil
            exact hA (by rw [hnil]; rfl)
          refine ⟨by simp [hAcc], fun d hd => hacc d (List.mem_reverse.mp hd)⟩
        · exact ih [] (by simp) t h
    · rw [if_neg hws] at ht
      refine ih (c :: acc) ?_ t ht
      intro d hd
      rcases List.mem_cons.mp hd with h | h
      · subst h
        simpa using hws
      · exact hacc d h

theorem splitWsAux_chars (s : List Char) : ∀ acc t c, t ∈ splitWsAux s acc → c ∈ t →
    c ∈ s ∨ c ∈ acc := by
  induction s with
  | nil =>
    intro acc t c ht hc
    simp only [splitWsAux] at ht
    by_cases hA : acc.isEmpty
    · simp [hA] at ht
    · rw [if_neg hA, List.mem_singleton] at ht
      subst ht
      exact Or.inr (List.mem_reverse.mp hc)
  | cons d ds ih =>
    intro acc t c ht hc
    simp only [splitWsAux] at ht
    by_cases hws : isWs d
    · rw [if_pos hws] at ht
      by_cases hA : acc.isEmpty
      · rw [if_pos hA] at ht
        rcases ih [] t c ht hc with h | h
        · exact Or.inl (List.mem_cons_of_mem _ h)
        · simp at h
      · rw [if_neg hA] at ht
        rcases List.mem_cons.mp ht with h | h
        · subst h
          exact Or.inr (List.mem_reverse.mp hc)
        · rcases ih [] t c h hc with h' | h'
          · exact Or.inl (List.mem_cons_of_mem _ h')
          · simp at h'
    · rw [if_neg hws] at ht
      rcases ih (d :: acc) t c ht hc with h | h
      · exact Or.inl (List.mem_cons_of_mem _ h)
      · rcases List.mem_cons.mp h with h' | h'
        · exact Or.inl (by simp [h'])
        · exact Or.inr h'

theorem splitWsAux_token_app (t : List Char) : ∀ r acc, (∀ c ∈ t, isWs c = false) →
    splitWsAux (t ++ r) acc = splitWsAux r (t.reverse ++ acc) := by
  induction t with
  | nil => intro r acc _; simp
  | cons c ct ih =>
    intro r acc h
    have hc : isWs c = false := h c (by simp)
    simp only [List.cons_append, splitWsAux, hc, Bool.false_eq_true, if_false]
    show splitWsAux (ct ++ r) (c :: acc) = splitWsAux r ((c :: ct).reverse ++ acc)
    rw [ih r (c :: acc) (fun d hd => h d (by simp [hd]))]
    simp

theorem splitWs_joinTok (L : List (List Char))
    (h : ∀ t ∈ L, t ≠ [] ∧ ∀ c ∈ t, isWs c = false) : splitWs (joinTok L) = L := by
  induction L with
  | nil => rfl
  | cons t ts ih =>
    obtain ⟨hne, hnws⟩ := h t (by simp)
    cases ts with
    | nil =>
      have h1 := splitWsAux_token_app t [] [] hnws
      simp only [List.append_nil] at h1
      unfold splitWs
      rw [show joinTok [t] = t from rfl, h1]
      simp [splitWsAux, hne]
    | cons t2 ts2 =>
      unfold splitWs
      rw [show joinTok (t :: t2 :: ts2) = t ++ ' ' :: joinTok (t2 :: ts2) from rfl]
      rw [splitWsAux_token_app t _ [] hnws]
      simp only [List.append_nil]
      simp only [splitWsAux, (by decide : isWs ' ' = true), if_true]
      rw [if_neg (by simp [hne])]
      rw [List.reverse_reverse]
      have := ih (fun u hu => h u (List.mem_cons_of_mem _ hu))
      unfold splitWs at this
      rw [this]

theorem joinTok_chars : ∀ (L : List (List Char)) (c : Char), c ∈ joinTok L →
    (∃ t ∈ L, c ∈ t) ∨ c = ' '
  | [], c, h => by simp [joinTok] at h
  | [t], c, h => by
    rw [show joinTok [t] = t from rfl] at h
    exact Or.inl ⟨t, by simp, h⟩
  | t :: t2 :: ts, c, h => by
    rw [show joinTok (t :: t2 :: ts) = t ++ ' ' :: joinTok (t2 :: ts) from rfl] at h
    rcases List.mem_append.mp h with h | h
    · exact Or.inl ⟨t, by simp, h⟩
    · rcases List.mem_cons.mp h with h | h
      · exact Or.inr h
      · rcases joinTok_chars (t2 :: ts) c h with ⟨u, hu, hcu⟩ | h
        · exact Or.inl ⟨u, List.mem_cons_of_mem _ hu, hcu⟩
        · exact Or.inr h

theorem joinTok_head_char (t : List Char) (ts : List (List Char))
    (h : ∀ u ∈ t :: ts, u ≠ [] ∧ ∀ c ∈ u, isWs c = false) :
    ∃ c cs, joinTok (t :: ts) = c :: cs ∧ isWs c = false := by
  obtain ⟨hne, hnws⟩ := h t (by simp)
  obtain ⟨c, t1, rfl⟩ : ∃ c t1, t = c :: t1 := by
    cases t with
    | nil => exact absurd rfl hne
    | cons a b => exact ⟨a, b, rfl⟩
  cases ts with
  | nil => exact ⟨c, t1, rfl, hnws c (by simp)⟩
  | cons t2 ts2 =>
    exact ⟨c, t1 ++ ' ' :: joinTok (t2 :: ts2), rfl, hnws c (by simp)⟩

theorem joinTok_last_char : ∀ (t : List Char) (ts : List (List Char)),
    (∀ u ∈ t :: ts, u ≠ [] ∧ ∀ c ∈ u, isWs c = false) →
    ∃ c cs, (joinTok (t :: ts)).reverse = c :: cs ∧ isWs c = false
  | t, [], h => by
    obtain ⟨hne, hnws⟩ := h t (by simp)
    obtain ⟨c, cs, hrev⟩ : ∃ c cs, t.reverse = c :: cs := by
      cases hR : t.reverse with
      | nil => exact absurd (by simpa using hR) hne
      | cons a b => exact ⟨a, b, rfl⟩
    refine ⟨c, cs, by rw [show joinTok [t] = t from rfl, hrev], ?_⟩
    refine hnws c ?_
    rw [← List.mem_reverse, hrev]
    simp
  | t, t2 :: ts2, h => by
    obtain ⟨c, cs, hrev, hcws⟩ :=
      joinTok_last_char t2 ts2 (fun u hu => h u (List.mem_cons_of_mem _ hu))
    refine ⟨c, cs ++ ' ' :: t.reverse, ?_, hcws⟩
    rw [show joinTok (t :: t2 :: ts2) = t ++ ' ' :: joinTok (t2 :: ts2) from rfl]
    rw [List.reverse_append, List.reverse_cons, hrev]
    simp

theorem stripBoth_eq_self (l : List Char)
    (h1 : ∃ c cs, l = c :: cs ∧ isWs c = false)
    (h2 : ∃ c cs, l.reverse = c :: cs ∧ isWs c = false) :
    stripBoth l = l := by
  obtain ⟨c, cs, rfl, hc⟩ := h1
  obtain ⟨d, ds, hrev, hd⟩ := h2
  unfold stripBoth
  rw [List.dropWhile_cons]
  simp only [hc, Bool.false_eq_true, if_false]
  rw [hrev, List.dropWhile_cons]
  simp only [hd, Bool.false_eq_true, if_false]
  rw [← hrev, List.reverse_reverse]

theorem mem_stripBoth (l : List Char) (c : Char) (h : c ∈ stripBoth l) : c ∈ l := by
  unfold stripBoth at h
  rw [List.mem_reverse] at h
  have h1 := (List.dropWhile_sublist (l := (l.dropWhile isWs).reverse) (p := isWs)).subset h
  rw [List.mem_reverse] at h1
  exact (List.dropWhile_sublist (l := l) (p := isWs)).subset h1

theorem cleanList_kept (l : List Char) (c : Char) (h : c ∈ cleanList l) :
    isKept c = true := by
  unfold cleanList at h
  by_cases hE : l.isEmpty
  · rw [if_pos hE] at h
    simp at h
  · rw [if_neg hE] at h
    exact (List.mem_filter.mp (mem_stripBoth _ _ h)).2

theorem cleanList_stable (l : List Char) (h : ∀ c ∈ l, isKept c = true) :
    cleanList (cleanList l) = cleanList l := by
  by_cases hE : l.isEmpty
  · have h0 : cleanList l = [] := by unfold cleanList; rw [if_pos hE]
    rw [h0]
    rfl
  · have hToks := splitWsAux_tokens l [] (by simp)
    have hKeptJoin : ∀ c ∈ joinTok (splitWs l), isKept c = true := by
      intro c hc
      rcases joinTok_chars _ c hc with ⟨t, ht, hct⟩ | rfl
      · exact h c ((splitWsAux_chars l [] t c ht hct).resolve_right (by simp))
      · decide
    have hFilter : (joinTok (splitWs l)).filter isKept = joinTok (splitWs l) :=
      List.filter_eq_self.mpr hKeptJoin
    have hCleanL : cleanList l = stripBoth (joinTok (splitWs l)) := by
      unfold cleanList
      rw [if_neg hE, hFilter]
    cases hLcases : splitWs l with
    | nil =>
      have h0 : cleanList l = [] := by rw [hCleanL, hLcases]; rfl
      rw [h0]
      rfl
    | cons t ts =>
      have htoks' : ∀ u ∈ t :: ts, u ≠ [] ∧ ∀ c ∈ u, isWs c = false := by
        rw [← hLcases]
        exact fun u hu => hToks u hu
      have hStrip : stripBoth (joinTok (t :: ts)) = joinTok (t :: ts) :=
        stripBoth_eq_self _ (joinTok_head_char t ts htoks') (joinTok_last_char t ts htoks')
      have hFilter2 : (joinTok (t :: ts)).filter isKept = joinTok (t :: ts) := by
        rw [← hLcases]
        exact hFilter
      have hu : cleanList l = joinTok (t :: ts) := by rw [hCleanL, hLcases, hStrip]
      rw [hu]
      have hne2 : (joinTok (t :: ts)).isEmpty = false := by
        obtain ⟨c, cs, hcons, _⟩ := joinTok_head_char t ts htoks'
        rw [hcons]
        rfl
      have hRound : splitWs (joinTok (t :: ts)) = t :: ts := splitWs_joinTok _ htoks'
      unfold cleanList
      rw [if_neg (by simp [hne2]), hRound, hFilter2, hStrip]

/-- After one application of `clean_text`, further applications are stable:
`clean_text` composed with itself is idempotent. -/
theorem clean_text_stable (s : String) :
    clean_text (clean_text (clean_text s)) = clean_text (clean_text s) := by
  unfold clean_text
  rw [show (String.mk (cleanList s.data)).data = cleanList s.data from rfl]
  rw [show (String.mk (cleanList (cleanList s.data))).data
      = cleanList (cleanList s.data) from rfl]
  exact congrArg String.mk (cleanList_stable _ (fun c hc => cleanList_kept s.data c hc))

/-! ### `StockDataAgent.extract_data_from_url` and the per-URL category loop

The parsed document (BeautifulSoup tree) is a tree of element and text
nodes.  Embedded BeautifulSoup behaviours, from the calls the source makes:
`find_all(tags, text=regex)` keeps element nodes whose tag is in the list
and whose `.string` (the unique string of a chain of single-child nodes)
matches the regex; `table.find(text=regex)` is truthy iff some text
descendant matches; `get_text(strip=True)` concatenates every text
descendant stripped; traversal order is document (pre-)order.  The category
regexes are alternations of literal keywords (with `\s+` inside
`growth\s+rate` / `capital\s+expenditure`) searched case-insensitively.
The timestamp field is not modelled (no claim mentions it). -/

mutual
inductive HNode where
  | el : String → HForest → HNode
  | tx : String → HNode
inductive HForest where
  | nil : HForest
  | cons : HNode → HForest → HForest
end

/-- Build a forest from a list of nodes (literal documents). -/
def forestOf : List HNode → HForest
  | [] => .nil
  | n :: ns => .cons n (forestOf ns)

mutual
/-- A node followed by all its descendants, pre-order. -/
def allSub : HNode → List HNode
  | .tx s => [.tx s]
  | .el t cs => .el t cs :: allSubF cs
/-- All nodes of a forest, pre-order. -/
def allSubF : HForest → List HNode
  | .nil => []
  | .cons n ns => allSub n ++ allSubF ns
end

/-- All strict descendants of a node, pre-order. -/
def descend : HNode → List HNode
  | .tx _ => []
  | .el _ cs => allSubF cs

mutual
/-- `get_text(strip=True)` on a node: concatenation of stripped strings. -/
def textOf : HNode → List Char
  | .tx s => stripBoth s.data
  | .el _ cs => textOfF cs
/-- `get_text(strip=True)` over a forest. -/
def textOfF : HForest → List Char
  | .nil => []
  | .cons n ns => textOf n ++ textOfF ns
end

mutual
/-- BeautifulSoup `.string`: the string of a chain of single-child nodes. -/
def nodeStr : HNode → Option String
  | .tx s => some s
  | .el _ cs => soleStr cs
/-- `.string` of a tag's contents: defined only for a single child. -/
def soleStr : HForest → Option String
  | .cons n .nil => nodeStr n
  | _ => none
end

/-- The four data categories of `StockDataAgent.data_points`. -/
inductive Category where
  | growth_rate
  | performance
  | marginal_changes
  | capex
deriving DecidableEq

/-- Match of a sequence of literal words separated by `\s+`, anchored at the
head of `s` (for maximal-run whitespace; the patterns in scope admit no
operative backtracking since no keyword starts with whitespace). -/
def seqAt : List (List Char) → List Char → Bool
  | [], _ => true
  | [w], s => w.isPrefixOf s
  | w :: w2 :: rest, s =>
    w.isPrefixOf s &&
      !(((s.drop w.length).takeWhile isWs).isEmpty) &&
      seqAt (w2 :: rest) ((s.drop w.length).dropWhile isWs)

/-- `re.search` of a `\s+`-separated literal word sequence. -/
def containsSeqB (q : List (List Char)) : List Char → Bool
  | [] => seqAt q []
  | c :: cs => seqAt q (c :: cs) || containsSeqB q cs

/-- The `patterns` dict of `extract_data_from_url`: each category's regex as
its list of literal-word alternatives. -/
def catKeywords : Category → List (List (List Char))
  | .growth_rate => [["growth".data], ["increase".data], ["yoy".data],
      ["cagr".data], ["growth".data, "rate".data]]
  | .performance => [["performance".data], ["return".data], ["metric".data],
      ["profit".data], ["revenue".data]]
  | .marginal_changes => [["qoq".data], ["yoy".data], ["quarter".data],
      ["year".data], ["change".data]]
  | .capex => [["capex".data], ["capital".data, "expenditure".data],
      ["investment".data]]

/-- Case-insensitive `re.search(patterns[data_type], text)`. -/
def patMatch (cat : Category) (s : List Char) : Bool :=
  (catKeywords cat).any (fun q => containsSeqB q (s.map Char.toLower))

/-- Tag equality test on element nodes. -/
def tagIs (t : String) : HNode → Bool
  | .el u _ => u = t
  | .tx _ => false

/-- Name filter of `find_all(['div', 'p', 'td', 'tr', 'li'], ...)`. -/
def isBlockKind : HNode → Bool
  | .el u _ => u = "div" || u = "p" || u = "td" || u = "tr" || u = "li"
  | .tx _ => false

/-- Text filter of `find_all(..., text=re.compile(pattern, re.I))`:
the node's `.string` matches. -/
def strMatches (cat : Category) (n : HNode) : Bool :=
  match nodeStr n with
  | some s => patMatch cat s.data
  | none => false

/-- `table.find(text=re.compile(pattern, re.I))` is truthy. -/
def tableHasMatch (cat : Category) (tbl : HNode) : Bool :=
  (descend tbl).any (fun n => match n with
    | .tx s => patMatch cat s.data
    | .el _ _ => false)

/-- The `elements` list of `extract_data_from_url`: block-kind elements
whose string matches, then for each table with a matching text descendant,
all of its `tr`/`td` descendants. -/
def elementsFor (doc : HNode) (cat : Category) : List HNode :=
  (descend doc).filter (fun n => isBlockKind n && strMatches cat n) ++
    ((descend doc).filter (tagIs "table")).flatMap (fun tbl =>
      if tableHasMatch cat tbl then
        (descend tbl).filter (fun n => tagIs "tr" n || tagIs "td" n)
      else [])

/-- The text-accumulation loop of `extract_data_from_url`: keep an element's
text when it is nonempty and its stripped length exceeds 10, clean it, and
append it unless already present. -/
def collectTexts : List HNode → List String → List String
  | [], acc => acc
  | e :: es, acc =>
    if textOf e ≠ [] ∧ (stripBoth (textOf e)).length > 10 then
      if String.mk (cleanList (textOf e)) ∈ acc then collectTexts es acc
      else collectTexts es (acc ++ [String.mk (cleanList (textOf e))])
    else collectTexts es acc

/-- The record built by `extract_data_from_url` (`url` and `text_data`;
the wall-clock `timestamp` field is not modelled). -/
structure XRecord where
  url : String
  text_data : List String
deriving DecidableEq

/-- `StockDataAgent.extract_data_from_url`: returns the optional record and
the updated `collected_urls`.  The `doc` argument is the outcome of
`safe_goto` + `page.content()` (`none` models a failed navigation). -/
def extractFromUrl (doc : Option HNode) (url : String) (cat : Category)
    (visited : List String) : Option XRecord × List String :=
  if url ∈ visited then (none, visited)
  else
    match doc with
    | none => (none, visited)
    | some d =>
      if (collectTexts (elementsFor d cat) []).isEmpty then (none, visited)
      else (some ⟨url, collectTexts (elementsFor d cat) []⟩, url :: visited)

/-- An entry of `data_points[data_type]`: the record tagged with company and
source site. -/
structure CompanyResult where
  company : String
  source : String
  url : String
  text_data : List String
deriving DecidableEq

/-- The mutable state of `StockDataAgent`: the four category accumulators
and `collected_urls`. -/
structure AgentState where
  growth_rate : List CompanyResult
  performance : List CompanyResult
  marginal_changes : List CompanyResult
  capex : List CompanyResult
  collected_urls : List String
deriving DecidableEq

/-- The state `StockDataAgent.__init__` sets up. -/
def initState : AgentState := ⟨[], [], [], [], []⟩

/-- `self.data_points[data_type].append(...)`. -/
def addResult (st : AgentState) (cat : Category) (r : CompanyResult) : AgentState :=
  match cat with
  | .growth_rate => { st with growth_rate := st.growth_rate ++ [r] }
  | .performance => { st with performance := st.performance ++ [r] }
  | .marginal_changes => { st with marginal_changes := st.marginal_changes ++ [r] }
  | .capex => { st with capex := st.capex ++ [r] }

/-- Iteration order of `self.data_points.keys()` (dict insertion order). -/
def catOrder : List Category :=
  [.growth_rate, .performance, .marginal_changes, .capex]

/-- One iteration of the inner loop of `scrape_company`: extract one
category from one URL and append the produced record, if any. -/
def catStep (fetch : String → Option HNode) (company site url : String)
    (st : AgentState) (cat : Category) : AgentState :=
  match extractFromUrl (fetch url) url cat st.collected_urls with
  | (some r0, vis) =>
      addResult { st with collected_urls := vis } cat
        ⟨company, site, r0.url, r0.text_data⟩
  | (none, vis) => { st with collected_urls := vis }

/-- The `for data_type in self.data_points.keys()` loop of `scrape_company`
for one URL (the page is re-fetched per category in the source; `fetch`
models a deterministic site, so every category sees the same document). -/
def processUrl (fetch : String → Option HNode) (company site url : String)
    (st : AgentState) : AgentState :=
  catOrder.foldl (catStep fetch company site url) st

/-- Processing a sequence of URLs (the `for url in relevant_urls[:3]` loop,
over however many URLs a run visits). -/
def runUrls (fetch : String → Option HNode) (company site : String)
    (urls : List String) (st : AgentState) : AgentState :=
  urls.foldl (fun s u => processUrl fetch company site u s) st

/-- Number of records for URL `u` in one category list. -/
def urlCount (u : String) (l : List CompanyResult) : ℕ :=
  l.countP (fun r => r.url == u)

/-- Number of records for URL `u` across all four categories. -/
def totalFor (u : String) (st : AgentState) : ℕ :=
  urlCount u st.growth_rate + urlCount u st.performance +
    urlCount u st.marginal_changes + urlCount u st.capex

/-- Invariant: a URL has at most one record, and having one implies it is
in `collected_urls`. -/
def UrlInv (u : String) (st : AgentState) : Prop :=
  totalFor u st ≤ 1 ∧ (1 ≤ totalFor u st → u ∈ st.collected_urls)

/-! ### The end-to-end single-cell scenario -/

/-- The URL of the single-site scenario. -/
def c1Url : String := "https://site.example/results"

/-- The single table cell of the scenario. -/
def c1Cell : String := "Capex grew 12% YoY to ₹500 crore"

/-- A fetched document whose body is one table with the single cell. -/
def c1Doc : HNode :=
  .el "html" (forestOf [.el "body" (forestOf [.el "table" (forestOf
    [.el "tr" (forestOf [.el "td" (forestOf [.tx c1Cell])])])])])

/-- The site of the scenario: `c1Url` serves `c1Doc`, everything else fails. -/
def c1Fetch : String → Option HNode :=
  fun u => if u = c1Url then some c1Doc else none

/-- The aggregate after the run processes the scenario's one URL. -/
def c1Final : AgentState := processUrl c1Fetch "TCS" "moneycontrol" c1Url initState


/-- A table containing a matching cell next to a twelve-punctuation cell. -/
def c10Doc : HNode :=
  .el "html" (forestOf [.el "table" (forestOf [.el "tr" (forestOf
    [.el "td" (forestOf [.tx "capex plans rise"]),
     .el "td" (forestOf [.tx "!!!!!!!!!!!!"])])])])

/-! ### Dedup invariants of the extractor -/

theorem extractFromUrl_mem (d : Option HNode) (url : String) (cat : Category)
    (vis : List String) (h : url ∈ vis) :
    extractFromUrl d url cat vis = (none, vis) := by
  unfold extractFromUrl
  rw [if_pos h]

theorem extractFromUrl_some (d : Option HNode) (url : String) (cat : Category)
    (vis : List String) (r : XRecord) (v : List String)
    (h : extractFromUrl d url cat vis = (some r, v)) :
    r.url = url ∧ r.text_data ≠ [] ∧ v = url :: vis ∧ url ∉ vis := by
  by_cases hv : url ∈ vis
  · rw [extractFromUrl_mem _ _ _ _ hv] at h
    exact absurd (congrArg Prod.fst h) (by simp)
  · unfold extractFromUrl at h
    rw [if_neg hv] at h
    cases d with
    | none => exact absurd (congrArg Prod.fst h) (by simp)
    | some doc =>
      dsimp only at h
      by_cases hE : (collectTexts (elementsFor doc cat) []).isEmpty
      · rw [if_pos hE] at h
        exact absurd (congrArg Prod.fst h) (by simp)
      · rw [if_neg hE] at h
        have h1 : some (⟨url, collectTexts (elementsFor doc cat) []⟩ : XRecord)
            = some r := congrArg Prod.fst h
        have h2 : url :: vis = v := congrArg Prod.snd h
        have h3 := Option.some.inj h1
        refine ⟨by rw [← h3], ?_, h2.symm, hv⟩
        rw [← h3]
        simpa using hE

theorem extractFromUrl_none (d : Option HNode) (url : String) (cat : Category)
    (vis v : List String) (h : extractFromUrl d url cat vis = (none, v)) :
    v = vis := by
  by_cases hv : url ∈ vis
  · rw [extractFromUrl_mem _ _ _ _ hv] at h
    exact (congrArg Prod.snd h).symm
  · unfold extractFromUrl at h
    rw [if_neg hv] at h
    cases d with
    | none => exact (congrArg Prod.snd h).symm
    | some doc =>
      dsimp only at h
      by_cases hE : (collectTexts (elementsFor doc cat) []).isEmpty
      · rw [if_pos hE] at h
        exact (congrArg Prod.snd h).symm
      · rw [if_neg hE] at h
        exact absurd (congrArg Prod.fst h) (by simp)

theorem addResult_collected (st : AgentState) (cat : Category) (r : CompanyResult) :
    (addResult st cat r).collected_urls = st.collected_urls := by
  cases cat <;> rfl

theorem totalFor_addResult (st : AgentState) (cat : Category) (r : CompanyResult)
    (u : String) :
    totalFor u (addResult st cat r) = totalFor u st + (if r.url = u then 1 else 0) := by
  cases cat <;>
    simp [addResult, totalFor, urlCount, List.countP_append, List.countP_cons,
      List.countP_nil, beq_iff_eq] <;>
    split_ifs <;> omega

theorem totalFor_set_collected (st : AgentState) (x : List String) (u : String) :
    totalFor u { st with collected_urls := x } = totalFor u st := rfl

theorem catStep_noop (fetch : String → Option HNode) (company site url : String)
    (st : AgentState) (cat : Category) (h : url ∈ st.collected_urls) :
    catStep fetch company site url st cat = st := by
  unfold catStep
  rw [extractFromUrl_mem _ _ _ _ h]

theorem catStep_inv (fetch : String → Option HNode) (company site url u : String)
    (st : AgentState) (cat : Category) (h : UrlInv u st) :
    UrlInv u (catStep fetch company site url st cat) := by
  rcases hx : extractFromUrl (fetch url) url cat st.collected_urls with ⟨ro, vis⟩
  cases ro with
  | none =>
    have hv : vis = st.collected_urls := extractFromUrl_none _ _ _ _ _ hx
    have hstep : catStep fetch company site url st cat = st := by
      unfold catStep
      rw [hx, hv]
    rw [hstep]
    exact h
  | some r0 =>
    obtain ⟨hurl, hne, hvis, hnm⟩ := extractFromUrl_some _ _ _ _ _ _ hx
    have hstep : catStep fetch company site url st cat
        = addResult { st with collected_urls := url :: st.collected_urls } cat
            ⟨company, site, r0.url, r0.text_data⟩ := by
      unfold catStep
      rw [hx, hvis]
    rw [hstep]
    obtain ⟨hle, hmem⟩ := h
    by_cases hu : u = url
    · subst hu
      have h0 : totalFor u st = 0 := by
        by_contra hpos
        exact hnm (hmem (by omega))
      constructor
      · rw [totalFor_addResult, totalFor_set_collected, h0]
        simp [hurl]
      · intro _
        rw [addResult_collected]
        exact List.mem_cons_self _ _
    · have hif : ¬((⟨company, site, r0.url, r0.text_data⟩ : CompanyResult).url = u) := by
        intro hh
        exact hu (by rw [← hh, hurl])
      constructor
      · rw [totalFor_addResult, totalFor_set_collected, if_neg hif]
        simpa using hle
      · intro hge
        rw [totalFor_addResult, totalFor_set_collected, if_neg hif] at hge
        rw [addResult_collected]
        exact List.mem_cons_of_mem _ (hmem (by omega))

theorem foldl_catStep_inv (fetch : String → Option HNode) (company site url u : String)
    (cats : List Category) (st : AgentState) (h : UrlInv u st) :
    UrlInv u (cats.foldl (catStep fetch company site url) st) := by
  induction cats generalizing st with
  | nil => simpa using h
  | cons c cs ih => exact ih _ (catStep_inv _ _ _ _ _ _ _ h)

theorem processUrl_inv (fetch : String → Option HNode) (company site url u : String)
    (st : AgentState) (h : UrlInv u st) :
    UrlInv u (processUrl fetch company site url st) :=
  foldl_catStep_inv _ _ _ _ _ _ _ h

theorem runUrls_inv (fetch : String → Option HNode) (company site u : String)
    (urls : List String) (st : AgentState) (h : UrlInv u st) :
    UrlInv u (runUrls fetch company site urls st) := by
  induction urls generalizing st with
  | nil => simpa [runUrls] using h
  | cons v vs ih =>
    have hstep : runUrls fetch company site (v :: vs) st
        = runUrls fetch company site vs (processUrl fetch company site v st) := rfl
    rw [hstep]
    exact ih _ (processUrl_inv _ _ _ _ _ _ h)

theorem initState_inv (u : String) : UrlInv u initState := by
  constructor
  · simp [totalFor, urlCount, initState]
  · intro hge
    simp [totalFor, urlCount, initState] at hge

/-! ### Claim theorems -/

/-- C1, counterexample: in the end-to-end single-cell scenario the `capex`
category of the aggregate is empty, not a singleton, even though the cell's
text matches the capex keyword set: the `growth_rate` pass (the cell
contains "YoY") runs first, marks the URL visited, and the later category
passes return absent. -/
theorem c1_counterexample :
    c1Final.capex = [] ∧ c1Final.capex.length ≠ 1 ∧
      patMatch Category.capex c1Cell.data = true := by
  decide

/-- C1, amended: end-to-end, for a company with one site whose fetched
document contains the single table cell "Capex grew 12% YoY to ₹500 crore",
after the run the aggregate's growth_rate category (the first category in
the fixed test order whose keyword set matches the cell — here via "YoY")
contains exactly one CompanyCategoryResult whose text_fragments is the
cleaned cell text; the performance, marginal_changes and capex categories
contain no record from this cell, because the first successful category
marks the URL visited and every later category test on that URL returns
absent: a single fragment cannot be recorded for more than one category. -/
theorem c1_amended :
    c1Final = ⟨[⟨"TCS", "moneycontrol", c1Url, [clean_text c1Cell]⟩],
        [], [], [], [c1Url]⟩ ∧
      clean_text c1Cell = c1Cell := by
  decide

/-- C2: a URL is added to `collected_urls` exactly at the moment it yields a
non-empty record (a `some` outcome appends the URL and has non-empty
`text_data`; a `none` outcome leaves the visited set unchanged), and once a
URL is in the visited set every extraction attempt on it returns absent with
the state unchanged. -/
theorem c2_visited_dedup (doc : Option HNode) (url : String) (cat : Category)
    (visited : List String) :
    (url ∈ visited → extractFromUrl doc url cat visited = (none, visited)) ∧
    (∀ r v, extractFromUrl doc url cat visited = (some r, v) →
      r.text_data ≠ [] ∧ v = url :: visited) ∧
    (∀ v, extractFromUrl doc url cat visited = (none, v) → v = visited) :=
  ⟨fun h => extractFromUrl_mem doc url cat visited h,
   fun r v h => ⟨(extractFromUrl_some doc url cat visited r v h).2.1,
     (extractFromUrl_some doc url cat visited r v h).2.2.1⟩,
   fun v h => extractFromUrl_none doc url cat visited v h⟩

/-- Witness for C2 at concrete inputs: a visited URL yields absent, and the
concrete C10 document yields a record with non-empty fragments that appends
the URL to the visited set. -/
theorem c2_visited_dedup_witness :
    extractFromUrl none "u" Category.capex ["u"] = (none, ["u"]) ∧
      ((⟨"u", ["capex plans rise", ""]⟩ : XRecord).text_data ≠ [] ∧
        ["u"] = "u" :: ([] : List String)) :=
  ⟨(c2_visited_dedup none "u" Category.capex ["u"]).1 (by simp),
   (c2_visited_dedup (some c10Doc) "u" Category.capex []).2.1
     ⟨"u", ["capex plans rise", ""]⟩ ["u"] (by decide)⟩

/-- C3: with `max_retries = 3` and a renderer that times out on every
navigation, `safe_goto` performs exactly 4 navigation attempts (initial +
3 retries), sleeps the strictly increasing backoff delays 2, 4, 6 (that is,
`2 × attemptNumber`) between consecutive attempts, and then returns failure
(`False`) rather than raising. -/
theorem c3_retry_backoff :
    safe_goto (fun _ => NavOutcome.timeoutErr) 3 0 = (false, 4, [2, 4, 6]) ∧
      2 < 4 ∧ 4 < 6 := by
  refine ⟨?_, by decide, by decide⟩
  simp [safe_goto]

/-- C4: `extract_amount` lowercases, strips commas, takes the first signed
decimal exactly, and multiplies by the factor of the first matching unit
keyword in the order cr, crore, lakh, lakhs, million, mn, billion, bn with
no stacking (it agrees with the spec-worded `specExtractAmount` on every
input); in particular `extract_amount "₹12.5 crore" = 125000000` exactly,
`extract_amount "1.2 lakh" = 120000`, and
`extract_amount "no numbers here"` is absent. -/
theorem c4_extract_amount :
    (∀ s, extract_amount s = specExtractAmount s) ∧
    extract_amount "₹12.5 crore" = some 125000000 ∧
    extract_amount "1.2 lakh" = some 120000 ∧
    extract_amount "no numbers here" = none :=
  ⟨extract_amount_eq_spec, ex_amount_crore, ex_amount_lakh, ex_amount_nonum⟩

/-- C5, counterexample: a decimal separated from the percent sign by
whitespace does count as a match — `extract_percentage "12 %"` returns 12,
not absent, because the source's regex is `(-?\d+\.?\d*)\s*%`. -/
theorem c5_counterexample :
    extract_percentage "12 %" ≠ none ∧ extract_percentage "12 %" = some 12 :=
  ⟨by rw [ex_pct_space12]; simp, ex_pct_space12⟩

/-- C5, amended: for every text, `extract_percentage` returns the first
signed decimal that is followed by optional whitespace and then a percent
sign (whitespace between the decimal and the percent sign is permitted), as
a number, and absent when no such match exists.  Soundness: every returned
value decomposes the input as prefix ++ token ++ whitespace ++ '%' ++ rest
with no earlier position matching.  Completeness: whenever such a
decomposition exists, a value is returned.  In particular
`extract_percentage "grew by -3.4%" = -3.4`, `extract_percentage "flat"` is
absent, and `extract_percentage "12 %" = 12`. -/
theorem c5_amended :
    (∀ s v, extract_percentage s = some v →
      ∃ tok pre ws rest, s.data = pre ++ tok ++ ws ++ '%' :: rest ∧
        isNumTok tok = true ∧ ws.all isWs = true ∧ v = ratOfToken tok ∧
        ∀ i < pre.length, pctAt (s.data.drop i) = none) ∧
    (∀ s (pre tok ws rest : List Char),
      s.data = pre ++ tok ++ ws ++ '%' :: rest →
      isNumTok tok = true → ws.all isWs = true →
      ∃ v, extract_percentage s = some v) ∧
    extract_percentage "grew by -3.4%" = some (-3.4) ∧
    extract_percentage "flat" = none ∧
    extract_percentage "12 %" = some 12 :=
  ⟨fun s v h => extract_percentage_sound s v h,
   fun s pre tok ws rest hdec h1 h2 =>
     extract_percentage_complete s pre tok ws rest hdec h1 h2,
   ex_pct_neg34, ex_pct_flat, ex_pct_space12⟩

/-- Witness for C5 at concrete inputs: the soundness decomposition of
`extract_percentage "5%" = 5`, and the completeness conclusion on "7%"
from its explicit decomposition. -/
theorem c5_amended_witness :
    (∃ tok pre ws rest, ("5%" : String).data = pre ++ tok ++ ws ++ '%' :: rest ∧
      isNumTok tok = true ∧ ws.all isWs = true ∧ (5 : ℚ) = ratOfToken tok ∧
      ∀ i < pre.length, pctAt (("5%" : String).data.drop i) = none) ∧
    (∃ v, extract_percentage "7%" = some v) :=
  ⟨c5_amended.1 "5%" 5 (by decide),
   c5_amended.2.1 "7%" [] ['7'] [] [] (by decide) (by decide) (by decide)⟩

/-- C6, counterexample: `clean_text "  Revenue   up!! 12%  "` is
`"Revenue up 12%"`, not `"Revenue up 12"`: the percent sign is in the kept
character class, so it is retained in the output. -/
theorem c6_counterexample :
    clean_text "  Revenue   up!! 12%  " ≠ "Revenue up 12" ∧
      clean_text "  Revenue   up!! 12%  " = "Revenue up 12%" := by
  refine ⟨?_, ex_clean_revenue⟩
  decide

/-- C6, amended: `clean_text "  Revenue   up!! 12%  "` returns
`"Revenue up 12%"`, with the exclamation marks removed, the percent sign
retained, leading/trailing whitespace stripped and internal whitespace
collapsed. -/
theorem c6_amended :
    clean_text "  Revenue   up!! 12%  " = "Revenue up 12%" :=
  ex_clean_revenue

/-- C7, counterexample: `clean_text` is not idempotent — on "a !! b" the
first pass removes the exclamation marks leaving the double space "a  b",
and a second pass collapses it to "a b". -/
theorem c7_counterexample :
    clean_text (clean_text "a !! b") ≠ clean_text "a !! b" ∧
      clean_text "a !! b" = "a  b" ∧
      clean_text (clean_text "a !! b") = "a b" := by
  decide

/-- C7, amended: `clean_text` is not idempotent in general (removing
disallowed characters can leave adjacent spaces that only the next pass
collapses), but it is stable after one application: for every string s,
`clean_text (clean_text (clean_text s)) = clean_text (clean_text s)`, i.e.
the composition of `clean_text` with itself is idempotent. -/
theorem c7_amended (s : String) :
    clean_text (clean_text (clean_text s)) = clean_text (clean_text s) :=
  clean_text_stable s

/-- C8: during a run, every URL yields at most one record in total across
the four categories; the categories are tested per URL in the fixed order
growth_rate, performance, marginal_changes, capex, and once a URL is in the
visited set (which the first non-empty record causes) every later
extraction attempt on it returns absent. -/
theorem c8_at_most_one_record (fetch : String → Option HNode)
    (company site u : String) (urls : List String) :
    totalFor u (runUrls fetch company site urls initState) ≤ 1 ∧
    catOrder = [Category.growth_rate, Category.performance,
      Category.marginal_changes, Category.capex] ∧
    (∀ doc url cat vis, url ∈ vis → extractFromUrl doc url cat vis = (none, vis)) :=
  ⟨(runUrls_inv fetch company site u urls initState (initState_inv u)).1,
   rfl,
   fun doc url cat vis h => extractFromUrl_mem doc url cat vis h⟩

/-- Witness for C8 at concrete inputs: the single-cell scenario leaves at
most one record for its URL, and extraction on an already-visited URL
returns absent. -/
theorem c8_at_most_one_record_witness :
    totalFor c1Url (runUrls c1Fetch "TCS" "moneycontrol" [c1Url] initState) ≤ 1 ∧
      extractFromUrl none "u" Category.capex ["u"] = (none, ["u"]) :=
  ⟨(c8_at_most_one_record c1Fetch "TCS" "moneycontrol" c1Url [c1Url]).1,
   (c8_at_most_one_record c1Fetch "TCS" "moneycontrol" c1Url [c1Url]).2.2
     none "u" Category.capex ["u"] (by simp)⟩

/-- C9: unit keywords are tested by substring containment on the lowercased
input, so the parsed number is multiplied by 10,000,000 for inputs where
"cr" only occurs inside an unrelated word: `extract_amount "5 across"`
returns 50000000 and `extract_amount "3 crypto tokens"` returns
30000000. -/
theorem c9_substring_units :
    extract_amount "5 across" = some 50000000 ∧
    extract_amount "3 crypto tokens" = some 30000000 :=
  ⟨ex_amount_across, ex_amount_crypto⟩

/-- C10: the >10-character length filter applies to an element's raw
stripped text before cleaning, so a table cell of twelve exclamation marks
(raw length 12 > 10, cleaned to the empty string of length 0 ≤ 10) puts the
empty-string fragment into the returned record's text_fragments, and the
record still counts as non-empty and marks its URL visited. -/
theorem c10_raw_length_filter :
    extractFromUrl (some c10Doc) "u" Category.capex []
        = (some ⟨"u", ["capex plans rise", ""]⟩, ["u"]) ∧
      ("" : String).length ≤ 10 ∧
      clean_text "!!!!!!!!!!!!" = "" ∧
      ("!!!!!!!!!!!!" : String).length > 10 := by
  decide

end Quetzal
